import Mathlib

/-!
Shallow embedding of the TaDIY day-schedule editor
(`custom_components/tadiy/www/tadiy-schedule-card.js`).

Times are minute-of-day integers.  In the source, a block stores its
boundaries as `HH:MM` strings and every arithmetic step goes through
`timeToMinutes` / `minutesToTime`; all strings the editor itself writes are
canonical zero-padded clock strings, on which that conversion pair is a
bijection (proved below), so the model keeps the minute values in the blocks
and keeps the string layer as explicit `List Char` functions.
Temperatures are modeled as rationals (JS numbers; the reserved string
sentinels never reach the numeric comparisons modeled here).
-/

namespace TaDIY

/-- JS `Math.round`: nearest integer, ties toward positive infinity. -/
def jsRound (q : ℚ) : ℤ := ⌊q + 1 / 2⌋

/-- `snapToGrid(minutes)` (line 208): `Math.round(minutes / 15) * 15`.
There is no clamping in the source.  The rounding is expressed with integer
floor division; `snapToGrid_eq_round` below proves it equal to
`jsRound (m / 15) * 15`. -/
def snapToGrid (m : ℤ) : ℤ := (2 * m + 15).fdiv 30 * 15

/-- Decimal rendering of a JS number holding an integer (`String(n)`). -/
def intToString (n : ℤ) : List Char :=
  if n < 0 then Char.ofNat 45 :: Nat.toDigits 10 (-n).toNat
  else Nat.toDigits 10 n.toNat

/-- `String.prototype.padStart(2, '0')`. -/
def padStart2 (s : List Char) : List Char :=
  List.replicate (2 - s.length) (Char.ofNat 48) ++ s

/-- `String.prototype.split(sep)` for a one-character separator. -/
def splitOnChar (sep : Char) : List Char → List (List Char)
  | [] => [[]]
  | c :: rest =>
    let r := splitOnChar sep rest
    if c = sep then [] :: r
    else
      match r with
      | [] => [[c]]
      | h :: t => (c :: h) :: t

/-- JS `Number(s)` on the decimal digit strings produced by the editor
(the only shapes that reach it on the modeled paths). -/
def jsNumber (s : List Char) : ℤ :=
  ((s.foldl (fun acc c => 10 * acc + (c.toNat - 48)) 0 : ℕ) : ℤ)

/-- `timeToMinutes(time)` (lines 183-186): split at the colon, convert the two
parts with `Number`, return `h * 60 + m`.  A string with no colon would give
`NaN` in JS; that shape never occurs on the modeled paths and is mapped to 0. -/
def timeToMinutes (time : List Char) : ℤ :=
  match splitOnChar (':') time with
  | h :: m :: _ => jsNumber h * 60 + jsNumber m
  | _ => 0

/-- `minutesToTime(minutes)` (lines 188-192): `h = Math.floor(minutes / 60)`,
`m = minutes % 60` (JS remainder, sign of the dividend), both zero-padded to
two characters and joined with a colon. -/
def minutesToTime (minutes : ℤ) : List Char :=
  padStart2 (intToString (minutes.fdiv 60)) ++ (':') :: padStart2 (intToString (minutes.tmod 60))

/-- One schedule block.  `start_time` / `end_time` hold the `timeToMinutes`
value of the stored clock string. -/
structure Block where
  start_time : ℤ
  end_time : ℤ
  temperature : ℚ
deriving DecidableEq, Repr

/-- `[...blocks].sort((a, b) => timeToMinutes(a.start_time) - timeToMinutes(b.start_time))`,
the sort-by-start step used by every structural operation.  JS `sort` is
stable; `List.insertionSort` is a stable sort, so it produces the same list. -/
def sortByStart (blocks : List Block) : List Block :=
  List.insertionSort (fun a b => a.start_time ≤ b.start_time) blocks

/-- `getDefaultSchedule()` (lines 125-147).  The literal `'23:59'` end of the
last block of each variant is 1439 minutes. -/
def getDefaultSchedule (scheduleType : String) : List Block :=
  if scheduleType = "weekday" then
    [⟨0, 360, 18⟩, ⟨360, 480, 21⟩, ⟨480, 960, 18⟩, ⟨960, 1320, 21⟩, ⟨1320, 1439, 18⟩]
  else if scheduleType = "weekend" then
    [⟨0, 480, 18⟩, ⟨480, 1380, 21⟩, ⟨1380, 1439, 18⟩]
  else
    [⟨0, 360, 18⟩, ⟨360, 1320, 21⟩, ⟨1320, 1439, 18⟩]

/-- The temperature blur handler (lines 747-751): `parseFloat` is modeled as
`Option ℚ` (`none` = `NaN`); the committed value replaces the block's previous
temperature unconditionally. -/
def commitTemperature (parsed : Option ℚ) : ℚ :=
  let temp : ℚ :=
    match parsed with
    | none => 5
    | some t => if t < 5 then 5 else t
  if temp > 30 then 30 else temp

/-- The outcomes of `validateBlocks` (lines 1096-1131), with the block
indices carried by the source's message strings (1-based in the messages). -/
inductive ValidationError where
  | emptySchedule : ValidationError
  | overlap (i j : ℕ) : ValidationError
  | endNotAfterStart (i : ℕ) : ValidationError
  | temperatureOutOfRange (i : ℕ) : ValidationError
deriving DecidableEq, Repr

/-- The overlap loop of `validateBlocks` (lines 1107-1114): walk adjacent
pairs of the sorted list; report when the earlier end exceeds the next start.
A gap (earlier end below the next start) passes. -/
def overlapCheck : ℕ → List Block → Option ValidationError
  | _, [] => none
  | _, [_] => none
  | i, a :: b :: rest =>
    if b.start_time < a.end_time then some (ValidationError.overlap (i + 1) (i + 2))
    else overlapCheck (i + 1) (b :: rest)

/-- The per-block loop of `validateBlocks` (lines 1117-1128): for each block
in turn, `start < end`, then the temperature bounds. -/
def blockCheck : ℕ → List Block → Option ValidationError
  | _, [] => none
  | i, a :: rest =>
    if a.end_time ≤ a.start_time then some (ValidationError.endNotAfterStart (i + 1))
    else if a.temperature < 5 ∨ a.temperature > 30 then
      some (ValidationError.temperatureOutOfRange (i + 1))
    else blockCheck (i + 1) rest

/-- `validateBlocks()` (lines 1096-1131): emptiness, then the overlap loop on
the sorted copy, then the per-block loop on the sorted copy.  `none` = valid. -/
def validateBlocks (blocks : List Block) : Option ValidationError :=
  if blocks.length = 0 then some ValidationError.emptySchedule
  else
    match overlapCheck 0 (sortByStart blocks) with
    | some e => some e
    | none => blockCheck 0 (sortByStart blocks)

/-- The two recoverable structural-edit errors (`showError` messages at lines
1021 and 1051). -/
inductive EditError where
  | tooSmall : EditError
  | lastBlock : EditError
deriving DecidableEq, Repr

/-- The editor state touched by the structural operations. -/
structure EditorState where
  blocks : List Block
  selectedBlockIndex : Option ℕ
deriving DecidableEq, Repr

/-- The gap-fill loop of `deleteBlock` (lines 1065-1073): for each adjacent
pair of the sorted list, if the next start is beyond the current end, extend
the current end to the next start.  Later starts are never modified by the
loop, so the sequential in-place loop is this one-pass recursion. -/
def gapFill : List Block → List Block
  | [] => []
  | [a] => [a]
  | a :: b :: rest =>
    (if a.end_time < b.start_time then { a with end_time := b.start_time } else a) ::
      gapFill (b :: rest)

/-- Lines 1076-1078 of `deleteBlock`: force the first block's start to
`'00:00'` when it differs. -/
def fixFirst : List Block → List Block
  | [] => []
  | a :: rest => (if a.start_time ≠ 0 then { a with start_time := 0 } else a) :: rest

/-- Lines 1080-1084 of `deleteBlock`: force the last block's end to `'24:00'`
unless it is already `'24:00'` or `'23:59'` (1440 or 1439 minutes). -/
def fixLast (blocks : List Block) : List Block :=
  match blocks.getLast? with
  | none => blocks
  | some a =>
    if a.end_time ≠ 1440 ∧ a.end_time ≠ 1439 then
      blocks.dropLast ++ [{ a with end_time := 1440 }]
    else blocks

/-- `deleteBlock(index)` (lines 1049-1094).  `splice(index, 1)` is
`eraseIdx`; then sort, gap-fill, first/last fixes, and the selection clamp
(JS `null >= length` is false, so a `none` selection is left alone). -/
def deleteBlock (st : EditorState) (index : ℕ) : EditorState × Option EditError :=
  if st.blocks.length ≤ 1 then (st, some EditError.lastBlock)
  else
    let sorted := fixLast (fixFirst (gapFill (sortByStart (st.blocks.eraseIdx index))))
    let sel : Option ℕ :=
      match st.selectedBlockIndex with
      | some k => if sorted.length ≤ k then some (sorted.length - 1) else some k
      | none => none
    ({ blocks := sorted, selectedBlockIndex := sel }, none)

/-- The largest-block scan of `addBlock` (lines 1002-1012): first block of the
sorted list whose duration strictly exceeds every earlier one, starting from a
running maximum of 0.  `none` (all durations non-positive) would leave the JS
variable `undefined` and crash below; it is unreachable from editor states. -/
def largestBlockAux : List Block → ℤ → Option Block → Option Block
  | [], _, acc => acc
  | b :: rest, maxDur, acc =>
    if maxDur < b.end_time - b.start_time then
      largestBlockAux rest (b.end_time - b.start_time) (some b)
    else largestBlockAux rest maxDur acc

/-- `addBlock()` (lines 990-1047), the split operation.  The block to split is
the selected one, else the largest.  In the selected branch
`indexOf(blockToSplit)` returns the selected index itself (reference
equality); in the largest branch it is modeled by value search, which agrees
with the reference search whenever blocks are pairwise distinct.  NOTE the
aliasing at lines 1032/1037: `blockToSplit` and the array slot at
`originalIndex` are the same object, so `newBlock.end_time` reads the value
written one line earlier — the snapped midpoint — not the original end. -/
def addBlock (st : EditorState) : EditorState × Option EditError :=
  let sortedBlocks := sortByStart st.blocks
  let blockToSplit? : Option Block :=
    match st.selectedBlockIndex with
    | some i => st.blocks[i]?
    | none => largestBlockAux sortedBlocks 0 none
  match blockToSplit? with
  | none => (st, none)
  | some b =>
    let duration := b.end_time - b.start_time
    if duration < 30 then (st, some EditError.tooSmall)
    else
      let snappedMid := snapToGrid (b.start_time + duration.fdiv 2)
      let originalIndex : ℕ :=
        match st.selectedBlockIndex with
        | some i => i
        | none => st.blocks.findIdx (· == b)
      let blocks1 := st.blocks.set originalIndex { b with end_time := snappedMid }
      let newBlock : Block := ⟨snappedMid, snappedMid, 21⟩
      ({ blocks := blocks1.insertIdx (originalIndex + 1) newBlock,
         selectedBlockIndex := some (originalIndex + 1) }, none)

/-- Which resize handle is being dragged. -/
inductive Handle where
  | left : Handle
  | right : Handle
deriving DecidableEq, Repr

/-- One `onMouseMove` step of the resize gesture (lines 884-967), applied to
the state at gesture start.  `startMinutes` / `endMinutes` are the dragged
block's boundaries, `snappedDelta` the snapped pixel delta.  The source
locates the dragged block and its neighbors by object identity inside the
sorted copy and writes through `indexOf`; the model uses value search
(`findIdx`), which agrees whenever blocks are pairwise distinct (always the
case under the coverage invariant, where starts strictly increase). -/
def resizeBoundary (blocks : List Block) (index : ℕ) (handleType : Handle)
    (snappedDelta : ℤ) : List Block :=
  match blocks[index]? with
  | none => blocks
  | some blockData =>
    let startMinutes := blockData.start_time
    let endMinutes := blockData.end_time
    let sortedBlocks := sortByStart blocks
    let sortedIndex := sortedBlocks.findIdx (· == blockData)
    match handleType with
    | Handle.left =>
      let newStart : ℤ :=
        if sortedIndex = 0 then 0
        else
          match sortedBlocks[sortedIndex - 1]? with
          | none => 0
          | some prevBlock =>
            max (prevBlock.start_time + 15) (min (startMinutes + snappedDelta) (endMinutes - 15))
      if startMinutes = newStart then blocks
      else
        let blocks1 := blocks.set index { blockData with start_time := newStart }
        if 0 < sortedIndex then
          match sortedBlocks[sortedIndex - 1]? with
          | none => blocks1
          | some prevBlock =>
            blocks1.set (blocks1.findIdx (· == prevBlock)) { prevBlock with end_time := newStart }
        else blocks1
    | Handle.right =>
      let newEnd : ℤ :=
        if sortedIndex = sortedBlocks.length - 1 then 1440
        else
          match sortedBlocks[sortedIndex + 1]? with
          | none => 1440
          | some nextBlock =>
            max (startMinutes + 15) (min (endMinutes + snappedDelta) (nextBlock.end_time - 15))
      if endMinutes = newEnd then blocks
      else
        let blocks1 := blocks.set index { blockData with end_time := newEnd }
        if sortedIndex < sortedBlocks.length - 1 then
          match sortedBlocks[sortedIndex + 1]? with
          | none => blocks1
          | some nextBlock =>
            blocks1.set (blocks1.findIdx (· == nextBlock)) { nextBlock with start_time := newEnd }
        else blocks1

/-- Adjacent blocks share their boundary exactly (the pairwise part of
Invariant A), phrased structurally. -/
def contiguous : List Block → Prop
  | [] => True
  | [_] => True
  | a :: b :: rest => a.end_time = b.start_time ∧ contiguous (b :: rest)

instance instDecContiguous : (l : List Block) → Decidable (contiguous l)
  | [] => isTrue trivial
  | [_] => isTrue trivial
  | a :: b :: rest =>
    have : Decidable (contiguous (b :: rest)) := instDecContiguous (b :: rest)
    inferInstanceAs (Decidable (a.end_time = b.start_time ∧ contiguous (b :: rest)))

/-- Invariants A and B restricted to what the resize claims need: contiguous
coverage of the day from 0 to 1440 with every block at least 15 minutes long. -/
def coversDay (blocks : List Block) : Prop :=
  contiguous blocks ∧
  (∀ b ∈ blocks, b.start_time + 15 ≤ b.end_time) ∧
  blocks.head?.map Block.start_time = some 0 ∧
  blocks.getLast?.map Block.end_time = some 1440

instance (blocks : List Block) : Decidable (coversDay blocks) :=
  inferInstanceAs (Decidable (contiguous blocks ∧
    (∀ b ∈ blocks, b.start_time + 15 ≤ b.end_time) ∧
    blocks.head?.map Block.start_time = some 0 ∧
    blocks.getLast?.map Block.end_time = some 1440))


/-- The integer floor division in `snapToGrid` is exactly `Math.round(m / 15) * 15`. -/
theorem snapToGrid_eq_round (m : ℤ) : snapToGrid m = jsRound ((m : ℚ) / 15) * 15 := by
  unfold snapToGrid jsRound
  congr 1
  rw [Int.fdiv_eq_ediv _ (by norm_num)]
  rw [show ((m : ℚ) / 15 + 1 / 2) = (((2 * m + 15 : ℤ) : ℚ) / ((30 : ℕ) : ℚ)) by push_cast; ring]
  rw [Rat.floor_intCast_div_natCast (2 * m + 15) 30]
  norm_num

/-- Claim C6 (corrected): `snap(m)` is `Math.round(m / 15) * 15` with no
clamping: the result is always a multiple of 15 and within 7 minutes of `m`,
but it is only inside `[0, 1440]` when `m` is inside `[-7, 1447]`. -/
theorem snap_rounds_to_grid_unclamped :
    ∀ m : ℤ,
      snapToGrid m = jsRound ((m : ℚ) / 15) * 15 ∧
      15 ∣ snapToGrid m ∧
      |snapToGrid m - m| ≤ 7 ∧
      (0 ≤ snapToGrid m ↔ -7 ≤ m) ∧
      (snapToGrid m ≤ 1440 ↔ m ≤ 1447) := by
  intro m
  have hb : (2 * m + 15).fdiv 30 = (2 * m + 15) / 30 := Int.fdiv_eq_ediv _ (by norm_num)
  refine ⟨snapToGrid_eq_round m, dvd_mul_left 15 _, ?_, ?_, ?_⟩
  · rw [abs_le]
    unfold snapToGrid
    rw [hb]
    omega
  · unfold snapToGrid
    rw [hb]
    omega
  · unfold snapToGrid
    rw [hb]
    omega

/-- Claim C6 counterexample: the claim says `snap` never returns a value
above 1440 or below 0; `snap(1500) = 1500` and `snap(-20) = -15`. -/
theorem snap_unclamped_cex :
    snapToGrid 1500 = 1500 ∧ ¬snapToGrid 1500 ≤ 1440 ∧
    snapToGrid (-20) = -15 ∧ ¬0 ≤ snapToGrid (-20) := by decide

/-- Splitting a separator-free string yields the one-piece split. -/
theorem splitOnChar_no_sep (sep : Char) (ys : List Char) (h : sep ∉ ys) :
    splitOnChar sep ys = [ys] := by
  induction ys with
  | nil => rfl
  | cons c rest ih =>
    have hc : ¬c = sep := fun hcs => h (hcs ▸ List.mem_cons_self c rest)
    have hr : splitOnChar sep rest = [rest] := ih (fun hm => h (List.mem_cons_of_mem c hm))
    simp [splitOnChar, hc, hr]

/-- Splitting peels off the part before the first separator. -/
theorem splitOnChar_append_sep (sep : Char) (xs ys : List Char) (h : sep ∉ xs) :
    splitOnChar sep (xs ++ sep :: ys) = xs :: splitOnChar sep ys := by
  induction xs with
  | nil => simp [splitOnChar]
  | cons c rest ih =>
    have hc : ¬c = sep := fun hcs => h (hcs ▸ List.mem_cons_self c rest)
    have hr := ih (fun hm => h (List.mem_cons_of_mem c hm))
    simp [splitOnChar, hc, hr]

/-- `Number` inverts the zero-padded rendering of a two-digit value. -/
theorem jsNumber_pad (n : ℕ) (h : n < 100) :
    jsNumber (padStart2 (intToString (n : ℤ))) = (n : ℤ) := by
  revert n h
  decide

/-- The zero-padded rendering of a two-digit value contains no colon. -/
theorem colon_not_mem_pad (n : ℕ) (h : n < 100) :
    (':') ∉ padStart2 (intToString (n : ℤ)) := by
  revert n h
  decide

/-- Parsing a colon-joined pair of colon-free strings. -/
theorem timeToMinutes_pair (a b : List Char) (ha : (':') ∉ a) (hb : (':') ∉ b) :
    timeToMinutes (a ++ (':') :: b) = jsNumber a * 60 + jsNumber b := by
  unfold timeToMinutes
  rw [splitOnChar_append_sep _ _ _ ha, splitOnChar_no_sep _ _ hb]

/-- Claim C7 (confirmed): formatting a minute-of-day value in `[0, 1440]` as a
zero-padded clock string and parsing it back is the identity, and 1440
formats as the string `24:00`, which parses back to 1440. -/
theorem clock_roundTrip :
    (∀ m : ℤ, 0 ≤ m → m ≤ 1440 → timeToMinutes (minutesToTime m) = m) ∧
    minutesToTime 1440 = ['2', '4', ':', '0', '0'] ∧
    timeToMinutes ['2', '4', ':', '0', '0'] = 1440 := by
  refine ⟨?_, by decide, by decide⟩
  intro m hm0 hm1
  obtain ⟨n, rfl⟩ := Int.eq_ofNat_of_zero_le hm0
  have hn : n ≤ 1440 := by exact_mod_cast hm1
  have hfd : (n : ℤ).fdiv 60 = ((n / 60 : ℕ) : ℤ) := (Int.ofNat_fdiv n 60).symm
  have htm : (n : ℤ).tmod 60 = ((n % 60 : ℕ) : ℤ) := (Int.ofNat_tmod n 60).symm
  have h60 : n / 60 < 100 := by omega
  have h60b : n % 60 < 100 := by omega
  have hmt : minutesToTime (n : ℤ) =
      padStart2 (intToString ((n / 60 : ℕ) : ℤ)) ++
        (':') :: padStart2 (intToString ((n % 60 : ℕ) : ℤ)) := by
    unfold minutesToTime
    rw [hfd, htm]
  rw [hmt, timeToMinutes_pair _ _ (colon_not_mem_pad _ h60) (colon_not_mem_pad _ h60b),
    jsNumber_pad _ h60, jsNumber_pad _ h60b]
  omega

/-- Claim C7 witness: the round trip evaluated at 517 (`08:37`). -/
theorem clock_roundTrip_witness : timeToMinutes (minutesToTime 517) = 517 :=
  clock_roundTrip.1 517 (by decide) (by decide)

/-- Claim C4 (corrected): each of the three built-in defaults is sorted, has 5
(weekday) or 3 (weekend, daily) blocks, starts at minute 0, is contiguous,
and every boundary except the final end is a multiple of 15 — but each
variant's last block ends at minute 1439 (`'23:59'`), not 1440, and that last
block's duration is therefore not a multiple of 15 (it leaves remainder 14). -/
theorem defaults_invariants :
    ((getDefaultSchedule ("weekday")).length = 5 ∧
      (getDefaultSchedule ("weekend")).length = 3 ∧
      (getDefaultSchedule ("daily")).length = 3 ∧
      getDefaultSchedule ("holiday") = getDefaultSchedule ("daily")) ∧
    (∀ d ∈ [getDefaultSchedule ("weekday"), getDefaultSchedule ("weekend"),
        getDefaultSchedule ("daily")],
      d ≠ [] ∧
      sortByStart d = d ∧
      d.head?.map Block.start_time = some 0 ∧
      contiguous d ∧
      (∀ b ∈ d, 0 < b.end_time - b.start_time) ∧
      (∀ b ∈ d.dropLast,
        (b.end_time - b.start_time) % 15 = 0 ∧ b.start_time % 15 = 0 ∧ b.end_time % 15 = 0) ∧
      d.getLast?.map Block.end_time = some 1439 ∧
      d.getLast?.map (fun b => (b.end_time - b.start_time) % 15) = some 14) := by
  decide

/-- Claim C4 witness: the theorem applied to the weekday default. -/
theorem defaults_invariants_witness :
    sortByStart (getDefaultSchedule ("weekday")) = getDefaultSchedule ("weekday") :=
  (defaults_invariants.2 (getDefaultSchedule ("weekday")) (by decide)).2.1

/-- Claim C4 counterexample: the claim says every default ends at minute 1440
with all durations multiples of 15; the weekday default's last block ends at
1439 and its duration leaves remainder 14 modulo 15. -/
theorem defaults_end_1439_cex :
    (getDefaultSchedule ("weekday")).getLast?.map Block.end_time = some 1439 ∧
    ¬(getDefaultSchedule ("weekday")).getLast?.map Block.end_time = some 1440 ∧
    ¬(getDefaultSchedule ("weekday")).getLast?.map
        (fun b => (b.end_time - b.start_time) % 15) = some 0 := by
  decide

/-- Claim C10 (confirmed): a temperature commit with unparsable text yields
5.0; numeric input is clamped to `[5, 30]`, values already inside are kept. -/
theorem temperature_commit_clamps :
    commitTemperature none = 5 ∧
    ∀ t : ℚ,
      5 ≤ commitTemperature (some t) ∧
      commitTemperature (some t) ≤ 30 ∧
      (t < 5 → commitTemperature (some t) = 5) ∧
      (30 < t → commitTemperature (some t) = 30) ∧
      (5 ≤ t → t ≤ 30 → commitTemperature (some t) = t) := by
  refine ⟨by decide, fun t => ?_⟩
  have hc : commitTemperature (some t)
      = if (if t < 5 then (5 : ℚ) else t) > 30 then 30 else (if t < 5 then (5 : ℚ) else t) := rfl
  refine ⟨?_, ?_, ?_, ?_, ?_⟩ <;>
    · rw [hc]
      split_ifs <;> intros <;> linarith

/-- Claim C10 witness: unparsable text gives 5, 3 clamps to 5, 42 clamps to
30, 19 is kept. -/
theorem temperature_commit_clamps_witness :
    commitTemperature none = 5 ∧ commitTemperature (some 3) = 5 ∧
    commitTemperature (some 42) = 30 ∧ commitTemperature (some 19) = 19 :=
  ⟨temperature_commit_clamps.1,
    (temperature_commit_clamps.2 3).2.2.1 (by norm_num),
    (temperature_commit_clamps.2 42).2.2.2.1 (by norm_num),
    (temperature_commit_clamps.2 19).2.2.2.2 (by norm_num) (by norm_num)⟩

/-- Claim C8 (confirmed): splitting a selected block shorter than 30 minutes
fails with the too-small error and returns the state unchanged (blocks,
boundaries, temperatures and selection untouched); in particular for the
20-minute block `(22:00-22:20, 18)`. -/
theorem split_tooSmall_unchanged :
    (∀ (st : EditorState) (i : ℕ) (b : Block),
      st.selectedBlockIndex = some i → st.blocks[i]? = some b →
      b.end_time - b.start_time < 30 →
      addBlock st = (st, some EditError.tooSmall)) ∧
    addBlock ⟨[⟨1320, 1340, 18⟩], some 0⟩ =
      (⟨[⟨1320, 1340, 18⟩], some 0⟩, some EditError.tooSmall) := by
  refine ⟨?_, by decide⟩
  intro st i b hsel hb hdur
  simp only [addBlock, hsel, hb]
  rw [if_pos hdur]

/-- Claim C8 witness: the theorem applied to the 20-minute block
`(22:00-22:20, 18)`. -/
theorem split_tooSmall_unchanged_witness :
    addBlock ⟨[⟨1320, 1340, 18⟩], some 0⟩ =
      (⟨[⟨1320, 1340, 18⟩], some 0⟩, some EditError.tooSmall) :=
  split_tooSmall_unchanged.1 ⟨[⟨1320, 1340, 18⟩], some 0⟩ 0 ⟨1320, 1340, 18⟩ rfl
    (by decide) (by decide)

/-- Claim C9 (confirmed): on a non-empty schedule, `deleteBlock` fails with
the last-block error exactly when one block remains, on that failure the
state is returned unchanged, and with two or more blocks the error never
occurs. -/
theorem delete_lastBlock_iff :
    ∀ (st : EditorState) (index : ℕ), 1 ≤ st.blocks.length →
      (((deleteBlock st index).2 = some EditError.lastBlock) ↔ st.blocks.length = 1) ∧
      (st.blocks.length = 1 → deleteBlock st index = (st, some EditError.lastBlock)) ∧
      (2 ≤ st.blocks.length → (deleteBlock st index).2 = none) := by
  intro st index h1
  by_cases h : st.blocks.length ≤ 1
  · have hlen : st.blocks.length = 1 := by omega
    unfold deleteBlock
    rw [if_pos h]
    exact ⟨iff_of_true rfl hlen, fun _ => rfl, fun h2 => absurd hlen (by omega)⟩
  · unfold deleteBlock
    rw [if_neg h]
    refine ⟨iff_of_false ?_ (by omega), fun hlen => absurd hlen (by omega), fun _ => rfl⟩
    simp

/-- Claim C9 witness: deleting the only block of a one-block schedule fails
and leaves the state unchanged. -/
theorem delete_lastBlock_iff_witness :
    deleteBlock ⟨[⟨0, 1440, 18⟩], none⟩ 0 = (⟨[⟨0, 1440, 18⟩], none⟩, some EditError.lastBlock) :=
  (delete_lastBlock_iff ⟨[⟨0, 1440, 18⟩], none⟩ 0 (by decide)).2.1 (by decide)

/-- Claim C1 (corrected): for every selected block of duration at least 30
minutes — regardless of whether the duration reaches 120 — `addBlock` splits
at the snapped midpoint `snap(start + ⌊duration / 2⌋)`: the block's end
becomes the snapped midpoint and the inserted block, which becomes selected,
has temperature 21.0 but carries the snapped midpoint as both its start and
its end (the original end is read back after being overwritten).  Splitting
`(08:00-16:00, 18)` therefore yields `(08:00-12:00, 18)` then
`(12:00-12:00, 21.0)`. -/
theorem split_at_snapped_midpoint :
    (∀ (st : EditorState) (i : ℕ) (b : Block),
      st.selectedBlockIndex = some i → st.blocks[i]? = some b →
      30 ≤ b.end_time - b.start_time →
      addBlock st =
        (⟨(st.blocks.set i
              { b with end_time := snapToGrid (b.start_time + (b.end_time - b.start_time).fdiv 2) }).insertIdx
            (i + 1)
            ⟨snapToGrid (b.start_time + (b.end_time - b.start_time).fdiv 2),
              snapToGrid (b.start_time + (b.end_time - b.start_time).fdiv 2), 21⟩,
          some (i + 1)⟩, none)) ∧
    addBlock ⟨[⟨480, 960, 18⟩], some 0⟩ = (⟨[⟨480, 720, 18⟩, ⟨720, 720, 21⟩], some 1⟩, none) := by
  refine ⟨?_, by decide⟩
  intro st i b hsel hb hdur
  simp only [addBlock, hsel, hb]
  rw [if_neg (not_lt.mpr hdur)]

/-- Claim C1 counterexample: the claim says splitting `(08:00-16:00, 18)`
(480 minutes, at least 120) puts the boundary 60 minutes after the start and
produces the second half `(09:00-16:00, 21.0)`; the code instead produces a
second block starting at 720 (12:00), not 540 (09:00), and ending at 720,
not 960. -/
theorem split_not_at_60_cex :
    (addBlock ⟨[⟨480, 960, 18⟩], some 0⟩).1.blocks[1]? = some ⟨720, 720, 21⟩ ∧
    ¬((addBlock ⟨[⟨480, 960, 18⟩], some 0⟩).1.blocks[1]?).map Block.start_time = some 540 ∧
    ¬((addBlock ⟨[⟨480, 960, 18⟩], some 0⟩).1.blocks[1]?).map Block.end_time = some 960 := by
  decide

/-- Claim C1 witness: the theorem applied to the selected block
`(08:00-16:00, 18)` of a one-block schedule. -/
theorem split_at_snapped_midpoint_witness :
    addBlock ⟨[⟨480, 960, 18⟩], some 0⟩ = (⟨[⟨480, 720, 18⟩, ⟨720, 720, 21⟩], some 1⟩, none) :=
  (split_at_snapped_midpoint.1 ⟨[⟨480, 960, 18⟩], some 0⟩ 0 ⟨480, 960, 18⟩ rfl
    (by decide) (by decide)).trans (by decide)

/-- The overlap loop accepts exactly the lists whose adjacent pairs never put
the next start strictly below the current end; gaps pass it. -/
theorem overlapCheck_eq_none_iff (l : List Block) :
    ∀ i, overlapCheck i l = none ↔ l.Chain' (fun a b => a.end_time ≤ b.start_time) := by
  induction l with
  | nil => intro i; simp [overlapCheck]
  | cons a rest ih =>
    intro i
    cases rest with
    | nil => simp [overlapCheck]
    | cons b rest2 =>
      rw [List.chain'_cons]
      unfold overlapCheck
      by_cases hov : b.start_time < a.end_time
      · rw [if_pos hov]
        exact iff_of_false (by simp) (fun hc => absurd hc.1 (not_le.mpr hov))
      · rw [if_neg hov]
        rw [ih (i + 1)]
        exact (and_iff_right (not_lt.mp hov)).symm

/-- The per-block loop accepts exactly the lists whose blocks all have
`start < end` and temperature inside `[5, 30]`. -/
theorem blockCheck_eq_none_iff (l : List Block) :
    ∀ i, blockCheck i l = none ↔
      ∀ b ∈ l, b.start_time < b.end_time ∧ 5 ≤ b.temperature ∧ b.temperature ≤ 30 := by
  induction l with
  | nil => intro i; simp [blockCheck]
  | cons a rest ih =>
    intro i
    unfold blockCheck
    by_cases h1 : a.end_time ≤ a.start_time
    · rw [if_pos h1]
      exact iff_of_false (by simp)
        (fun h => absurd (h a (List.mem_cons_self a rest)).1 (not_lt.mpr h1))
    · rw [if_neg h1]
      by_cases h2 : a.temperature < 5 ∨ a.temperature > 30
      · rw [if_pos h2]
        refine iff_of_false (by simp) (fun h => ?_)
        rcases h a (List.mem_cons_self a rest) with ⟨-, h5, h30⟩
        rcases h2 with h | h
        · linarith
        · linarith
      · rw [if_neg h2]
        rw [ih (i + 1)]
        push_neg at h2
        constructor
        · intro hall b hb
          rcases List.mem_cons.mp hb with rfl | hb
          · exact ⟨not_le.mp h1, h2.1, h2.2⟩
          · exact hall b hb
        · intro hall b hb
          exact hall b (List.mem_cons_of_mem _ hb)

/-- The overlap loop reports the first adjacent overlapping pair, naming the
1-based positions of the two blocks. -/
theorem overlapCheck_first (l : List Block) :
    ∀ i j a b, l[j]? = some a → l[j + 1]? = some b → b.start_time < a.end_time →
      (∀ k, k < j → ∀ ak bk, l[k]? = some ak → l[k + 1]? = some bk →
        ak.end_time ≤ bk.start_time) →
      overlapCheck i l = some (ValidationError.overlap (i + j + 1) (i + j + 2)) := by
  induction l with
  | nil =>
    intro i j a b h
    simp at h
  | cons a0 rest ih =>
    intro i j a b hja hjb hov hmin
    cases rest with
    | nil =>
      rw [List.getElem?_cons_succ] at hjb
      simp at hjb
    | cons b0 rest2 =>
      unfold overlapCheck
      cases j with
      | zero =>
        simp only [List.getElem?_cons_zero, List.getElem?_cons_succ, Option.some.injEq] at hja hjb
        obtain rfl : a0 = a := hja
        obtain rfl : b0 = b := hjb
        rw [if_pos hov]
      | succ j' =>
        have h0 := hmin 0 (Nat.succ_pos j') a0 b0 (by simp) (by simp)
        rw [if_neg (not_lt.mpr h0)]
        have hja' : (b0 :: rest2)[j']? = some a := by
          rw [List.getElem?_cons_succ] at hja
          exact hja
        have hjb' : (b0 :: rest2)[j' + 1]? = some b := by
          rw [List.getElem?_cons_succ] at hjb
          exact hjb
        have hmin' : ∀ k, k < j' → ∀ ak bk, (b0 :: rest2)[k]? = some ak →
            (b0 :: rest2)[k + 1]? = some bk → ak.end_time ≤ bk.start_time := by
          intro k hk ak bk hak hbk
          exact hmin (k + 1) (Nat.succ_lt_succ hk) ak bk
            (by rw [List.getElem?_cons_succ]; exact hak)
            (by rw [List.getElem?_cons_succ]; exact hbk)
        have e1 : i + 1 + j' + 1 = i + (j' + 1) + 1 := by omega
        have e2 : i + 1 + j' + 2 = i + (j' + 1) + 2 := by omega
        rw [ih (i + 1) j' a b hja' hjb' hov hmin', e1, e2]

/-- Claim C3 (corrected): `validate` rejects the empty schedule; it is `Ok`
exactly when the schedule is non-empty, no adjacent pair of the sorted copy
overlaps (the earlier end never exceeds the next start — a gap, where the
earlier end lies strictly below the next start, is NOT flagged), every block
has `start < end` and every temperature is within `[5, 30]`; and the first
overlapping adjacent pair of the sorted copy is the one reported, with its
1-based block indices. -/
theorem validate_overlaps_only :
    validateBlocks [] = some ValidationError.emptySchedule ∧
    (∀ blocks : List Block,
      validateBlocks blocks = none ↔
        blocks ≠ [] ∧
        (sortByStart blocks).Chain' (fun a b => a.end_time ≤ b.start_time) ∧
        ∀ b ∈ blocks, b.start_time < b.end_time ∧ 5 ≤ b.temperature ∧ b.temperature ≤ 30) ∧
    (∀ (blocks : List Block) (j : ℕ) (a b : Block),
      blocks ≠ [] →
      (sortByStart blocks)[j]? = some a → (sortByStart blocks)[j + 1]? = some b →
      b.start_time < a.end_time →
      (∀ k, k < j → ∀ ak bk, (sortByStart blocks)[k]? = some ak →
        (sortByStart blocks)[k + 1]? = some bk → ak.end_time ≤ bk.start_time) →
      validateBlocks blocks = some (ValidationError.overlap (j + 1) (j + 2))) := by
  have hperm : ∀ blocks : List Block, (sortByStart blocks).Perm blocks := by
    intro blocks
    exact List.perm_insertionSort _ blocks
  refine ⟨rfl, ?_, ?_⟩
  · intro blocks
    unfold validateBlocks
    by_cases hemp : blocks.length = 0
    · rw [if_pos hemp]
      refine iff_of_false (by simp) (fun h => h.1 (List.length_eq_zero.mp hemp))
    · rw [if_neg hemp]
      cases hoc : overlapCheck 0 (sortByStart blocks) with
      | some e =>
        refine iff_of_false (by simp) (fun h => ?_)
        have := (overlapCheck_eq_none_iff (sortByStart blocks) 0).mpr h.2.1
        rw [this] at hoc
        exact Option.noConfusion hoc
      | none =>
        rw [blockCheck_eq_none_iff (sortByStart blocks) 0]
        constructor
        · intro hall
          refine ⟨fun hn => hemp (by rw [hn]; rfl),
            (overlapCheck_eq_none_iff (sortByStart blocks) 0).mp hoc, ?_⟩
          intro b hb
          exact hall b (((hperm blocks).mem_iff).mpr hb)
        · intro h b hb
          exact h.2.2 b (((hperm blocks).mem_iff).mp hb)
  · intro blocks j a b hne hja hjb hov hmin
    unfold validateBlocks
    rw [if_neg (fun h => hne (List.length_eq_zero.mp h))]
    have := overlapCheck_first (sortByStart blocks) 0 j a b hja hjb hov hmin
    rw [this]
    simp

/-- Claim C3 counterexample: the claim says a gap between sorted-adjacent
blocks is an error; the schedule below is sorted, its first block ends at
360, the next starts at 480 (a gap), yet `validate` reports it as valid. -/
theorem validate_misses_gap_cex :
    sortByStart [⟨0, 360, 18⟩, ⟨480, 1440, 21⟩] = [⟨0, 360, 18⟩, ⟨480, 1440, 21⟩] ∧
    (360 : ℤ) < 480 ∧
    validateBlocks [⟨0, 360, 18⟩, ⟨480, 1440, 21⟩] = none := by
  decide

/-- Claim C3 witness: an overlapping pair at sorted position 0 is reported as
blocks 1 and 2. -/
theorem validate_overlaps_only_witness :
    validateBlocks [⟨0, 800, 18⟩, ⟨700, 1440, 21⟩] = some (ValidationError.overlap 1 2) :=
  validate_overlaps_only.2.2 [⟨0, 800, 18⟩, ⟨700, 1440, 21⟩] 0 ⟨0, 800, 18⟩ ⟨700, 1440, 21⟩
    (by decide) (by decide) (by decide) (by decide)
    (fun k hk => absurd hk (Nat.not_lt_zero k))

/-- Gap-fill keeps every temperature in place. -/
theorem gapFill_map_temp (l : List Block) :
    (gapFill l).map Block.temperature = l.map Block.temperature := by
  induction l with
  | nil => rfl
  | cons a rest ih =>
    cases rest with
    | nil => rfl
    | cons b rest2 =>
      unfold gapFill
      simp only [List.map_cons] at ih ⊢
      rw [ih]
      split_ifs <;> rfl

/-- Gap-fill keeps every start in place. -/
theorem gapFill_map_start (l : List Block) :
    (gapFill l).map Block.start_time = l.map Block.start_time := by
  induction l with
  | nil => rfl
  | cons a rest ih =>
    cases rest with
    | nil => rfl
    | cons b rest2 =>
      unfold gapFill
      simp only [List.map_cons] at ih ⊢
      rw [ih]
      split_ifs <;> rfl

/-- Gap-fill preserves the length. -/
theorem gapFill_length (l : List Block) : (gapFill l).length = l.length := by
  have h := congrArg List.length (gapFill_map_temp l)
  simpa using h

/-- Gap-fill never touches the final block. -/
theorem gapFill_getLast (l : List Block) : (gapFill l).getLast? = l.getLast? := by
  induction l with
  | nil => rfl
  | cons a rest ih =>
    cases rest with
    | nil => rfl
    | cons b rest2 =>
      unfold gapFill
      rw [List.getLast?_cons_cons]
      rw [← ih]
      cases hg : gapFill (b :: rest2) with
      | nil =>
        have := gapFill_length (b :: rest2)
        rw [hg] at this
        simp at this
      | cons c cs =>
        rw [List.getLast?_cons_cons]

/-- The head's start survives gap-fill. -/
theorem gapFill_head_start (l : List Block) :
    (gapFill l).head?.map Block.start_time = l.head?.map Block.start_time := by
  cases l with
  | nil => rfl
  | cons a rest =>
    cases rest with
    | nil => rfl
    | cons b rest2 =>
      unfold gapFill
      split_ifs <;> rfl

/-- Where the input has a gap (earlier end strictly below the next start),
gap-fill rewrites the earlier end to exactly the next start. -/
theorem gapFill_getElem_gap (l : List Block) :
    ∀ j a b, l[j]? = some a → l[j + 1]? = some b → a.end_time < b.start_time →
      ((gapFill l)[j]?).map Block.end_time = some b.start_time := by
  induction l with
  | nil =>
    intro j a b h
    simp at h
  | cons x rest ih =>
    intro j a b hja hjb hgap
    cases rest with
    | nil =>
      rw [List.getElem?_cons_succ] at hjb
      simp at hjb
    | cons y rest2 =>
      unfold gapFill
      cases j with
      | zero =>
        simp only [List.getElem?_cons_zero, List.getElem?_cons_succ, Option.some.injEq] at hja hjb
        obtain rfl : x = a := hja
        obtain rfl : y = b := hjb
        rw [List.getElem?_cons_zero]
        rw [if_pos hgap]
        rfl
      | succ j' =>
        rw [List.getElem?_cons_succ] at hja
        rw [List.getElem?_cons_succ] at hjb
        rw [List.getElem?_cons_succ]
        exact ih j' a b hja hjb hgap

/-- After gap-fill, no adjacent pair leaves a gap: the next start never
exceeds the current end. -/
theorem gapFill_chain (l : List Block) :
    (gapFill l).Chain' (fun a b => b.start_time ≤ a.end_time) := by
  induction l with
  | nil => exact List.chain'_nil
  | cons a rest ih =>
    cases rest with
    | nil => exact List.chain'_singleton a
    | cons b rest2 =>
      unfold gapFill
      rw [List.chain'_cons']
      refine ⟨?_, ih⟩
      intro y hy
      have hstart : y.start_time = b.start_time := by
        have h := gapFill_head_start (b :: rest2)
        rw [List.head?_cons] at h
        rw [hy] at h
        simpa using h
      rw [hstart]
      split_ifs with hgap
      · exact le_of_eq rfl
      · exact not_lt.mp hgap

/-- The first-block fix keeps temperatures in place. -/
theorem fixFirst_map_temp (l : List Block) :
    (fixFirst l).map Block.temperature = l.map Block.temperature := by
  cases l with
  | nil => rfl
  | cons a rest =>
    simp only [fixFirst]
    split_ifs <;> rfl

/-- The first-block fix keeps every end in place. -/
theorem fixFirst_map_end (l : List Block) :
    (fixFirst l).map Block.end_time = l.map Block.end_time := by
  cases l with
  | nil => rfl
  | cons a rest =>
    simp only [fixFirst]
    split_ifs <;> rfl

/-- The first-block fix preserves the length. -/
theorem fixFirst_length (l : List Block) : (fixFirst l).length = l.length := by
  have h := congrArg List.length (fixFirst_map_temp l)
  simpa using h

/-- After the first-block fix of a non-empty list the head starts at 0. -/
theorem fixFirst_head_start (l : List Block) (h : l ≠ []) :
    ((fixFirst l)[0]?).map Block.start_time = some 0 := by
  cases l with
  | nil => exact absurd rfl h
  | cons a rest =>
    simp only [fixFirst]
    split_ifs with h0
    · simp
    · push_neg at h0
      simp [h0]

/-- The first-block fix leaves every later position untouched. -/
theorem fixFirst_getElem_succ (l : List Block) (j : ℕ) :
    (fixFirst l)[j + 1]? = l[j + 1]? := by
  cases l with
  | nil => rfl
  | cons a rest =>
    simp only [fixFirst]
    split_ifs <;> simp

/-- The first-block fix preserves the gap-free chain (it only lowers the
head's start, which occurs in no adjacency relation). -/
theorem fixFirst_chain (l : List Block)
    (h : l.Chain' (fun a b => b.start_time ≤ a.end_time)) :
    (fixFirst l).Chain' (fun a b => b.start_time ≤ a.end_time) := by
  cases l with
  | nil => exact List.chain'_nil
  | cons a rest =>
    rw [List.chain'_cons'] at h
    simp only [fixFirst]
    split_ifs <;>
      · rw [List.chain'_cons']
        exact h

/-- The first-block fix keeps the final end in place. -/
theorem fixFirst_getLast_end (l : List Block) :
    (fixFirst l).getLast?.map Block.end_time = l.getLast?.map Block.end_time := by
  rw [List.getLast?_eq_getElem?, List.getLast?_eq_getElem?, fixFirst_length]
  cases l with
  | nil => rfl
  | cons a rest =>
    cases rest with
    | nil =>
      simp only [fixFirst]
      split_ifs <;> rfl
    | cons b rest2 =>
      have hlen : (a :: b :: rest2 : List Block).length - 1 = rest2.length + 1 := by
        simp
      rw [hlen]
      simp only [fixFirst]
      split_ifs <;> simp


/-- The last-block fix only ever inspects and rewrites the final block. -/
theorem fixLast_cons_cons (a b : Block) (rest : List Block) :
    fixLast (a :: b :: rest) = a :: fixLast (b :: rest) := by
  unfold fixLast
  rw [List.getLast?_cons_cons]
  cases h : (b :: rest).getLast? with
  | none =>
    simp at h
  | some c =>
    dsimp only
    split_ifs with hc
    · rfl
    · rfl

/-- The last-block fix preserves the length. -/
theorem fixLast_length (l : List Block) : (fixLast l).length = l.length := by
  induction l with
  | nil => rfl
  | cons a rest ih =>
    cases rest with
    | nil =>
      simp only [fixLast]
      simp only [List.getLast?_singleton]
      split_ifs <;> simp
    | cons b rest2 =>
      rw [fixLast_cons_cons]
      simp only [List.length_cons]
      rw [ih]
      simp

/-- The last-block fix keeps every temperature in place. -/
theorem fixLast_map_temp (l : List Block) :
    (fixLast l).map Block.temperature = l.map Block.temperature := by
  induction l with
  | nil => rfl
  | cons a rest ih =>
    cases rest with
    | nil =>
      simp only [fixLast, List.getLast?_singleton]
      split_ifs <;> simp
    | cons b rest2 =>
      rw [fixLast_cons_cons]
      simp only [List.map_cons]
      rw [ih]
      simp

/-- The last-block fix keeps every start in place. -/
theorem fixLast_map_start (l : List Block) :
    (fixLast l).map Block.start_time = l.map Block.start_time := by
  induction l with
  | nil => rfl
  | cons a rest ih =>
    cases rest with
    | nil =>
      simp only [fixLast, List.getLast?_singleton]
      split_ifs <;> simp
    | cons b rest2 =>
      rw [fixLast_cons_cons]
      simp only [List.map_cons]
      rw [ih]
      simp

/-- The last-block fix leaves every non-final position untouched. -/
theorem fixLast_getElem_lt (l : List Block) :
    ∀ j, j + 1 < l.length → (fixLast l)[j]? = l[j]? := by
  induction l with
  | nil =>
    intro j hj
    simp at hj
  | cons a rest ih =>
    intro j hj
    cases rest with
    | nil =>
      simp at hj
    | cons b rest2 =>
      rw [fixLast_cons_cons]
      cases j with
      | zero => simp
      | succ k =>
        rw [List.getElem?_cons_succ, List.getElem?_cons_succ]
        refine ih k ?_
        simp only [List.length_cons] at hj ⊢
        omega

/-- The head's start survives the last-block fix. -/
theorem fixLast_head_start (l : List Block) :
    (fixLast l).head?.map Block.start_time = l.head?.map Block.start_time := by
  rw [List.head?_eq_getElem?, List.head?_eq_getElem?, ← List.getElem?_map, ← List.getElem?_map,
    fixLast_map_start]

/-- After the last-block fix of a non-empty list, the final end is 1440
unless it was already 1439 (`'23:59'`), which is left alone. -/
theorem fixLast_getLast_end (l : List Block) (h : l ≠ []) :
    (fixLast l).getLast?.map Block.end_time = some 1440 ∨
      (fixLast l).getLast?.map Block.end_time = some 1439 := by
  induction l with
  | nil => exact absurd rfl h
  | cons a rest ih =>
    cases rest with
    | nil =>
      simp only [fixLast, List.getLast?_singleton]
      split_ifs with hc
      · left
        simp
      · have hor : a.end_time = 1440 ∨ a.end_time = 1439 := by
          rcases not_and_or.mp hc with h1 | h2
          · left
            exact not_not.mp h1
          · right
            exact not_not.mp h2
        rcases hor with h1 | h1
        · left
          simp [h1]
        · right
          simp [h1]
    | cons b rest2 =>
      rw [fixLast_cons_cons]
      have hne : fixLast (b :: rest2) ≠ [] := by
        intro hh
        have hl := fixLast_length (b :: rest2)
        rw [hh] at hl
        simp at hl
      obtain ⟨c, cs, hc⟩ := List.exists_cons_of_ne_nil hne
      rw [hc, List.getLast?_cons_cons, ← hc]
      exact ih (by simp)

/-- The last-block fix preserves the gap-free chain (it only raises the final
end, which occurs in no adjacency relation as a start). -/
theorem fixLast_chain (l : List Block)
    (h : l.Chain' (fun a b => b.start_time ≤ a.end_time)) :
    (fixLast l).Chain' (fun a b => b.start_time ≤ a.end_time) := by
  induction l with
  | nil => exact List.chain'_nil
  | cons a rest ih =>
    cases rest with
    | nil =>
      simp only [fixLast, List.getLast?_singleton]
      split_ifs <;> exact List.chain'_singleton _
    | cons b rest2 =>
      rw [fixLast_cons_cons]
      rw [List.chain'_cons'] at h
      rw [List.chain'_cons']
      refine ⟨?_, ih h.2⟩
      intro y hy
      have hstart : y.start_time = b.start_time := by
        have hh := fixLast_head_start (b :: rest2)
        rw [List.head?_cons] at hh
        rw [hy] at hh
        simpa using hh
      rw [hstart]
      exact h.1 b (by rw [List.head?_cons]; rfl)

/-- Claim C2 (corrected): with at least two blocks and a valid index,
`deleteBlock` succeeds; the result has one block fewer; each remaining block
keeps its own temperature (in sorted order); wherever the sorted remainder
had a gap — an earlier end strictly below the next start — the earlier
block's end is extended to exactly that next start; afterwards no adjacent
pair leaves a gap; the new first block's start is forced to 0 (whether or not
the removed block was first); and the new last block's end is 1440 unless it
is 1439 (`'23:59'`, as in the built-in defaults), which is left alone.
Deleting the middle of `[(00:00-06:00,18),(06:00-22:00,21),(22:00-24:00,18)]`
yields `[(00:00-22:00,18),(22:00-24:00,18)]`. -/
theorem delete_gapFill :
    (∀ (st : EditorState) (index : ℕ),
      2 ≤ st.blocks.length → index < st.blocks.length →
      (deleteBlock st index).2 = none ∧
      (deleteBlock st index).1.blocks.length = st.blocks.length - 1 ∧
      (deleteBlock st index).1.blocks.map Block.temperature =
        (sortByStart (st.blocks.eraseIdx index)).map Block.temperature ∧
      (∀ j a b, (sortByStart (st.blocks.eraseIdx index))[j]? = some a →
        (sortByStart (st.blocks.eraseIdx index))[j + 1]? = some b →
        a.end_time < b.start_time →
        ((deleteBlock st index).1.blocks[j]?).map Block.end_time = some b.start_time) ∧
      (deleteBlock st index).1.blocks.Chain' (fun a b => b.start_time ≤ a.end_time) ∧
      ((deleteBlock st index).1.blocks[0]?).map Block.start_time = some 0 ∧
      ((deleteBlock st index).1.blocks.getLast?.map Block.end_time = some 1440 ∨
        (deleteBlock st index).1.blocks.getLast?.map Block.end_time = some 1439)) ∧
    deleteBlock ⟨[⟨0, 360, 18⟩, ⟨360, 1320, 21⟩, ⟨1320, 1440, 18⟩], none⟩ 1 =
      (⟨[⟨0, 1320, 18⟩, ⟨1320, 1440, 18⟩], none⟩, none) := by
  refine ⟨?_, by decide⟩
  intro st index h2 hidx
  have hnotle : ¬st.blocks.length ≤ 1 := by omega
  have herr : (deleteBlock st index).2 = none := by
    unfold deleteBlock
    rw [if_neg hnotle]
  have hblocks : (deleteBlock st index).1.blocks =
      fixLast (fixFirst (gapFill (sortByStart (st.blocks.eraseIdx index)))) := by
    unfold deleteBlock
    rw [if_neg hnotle]
  set L := sortByStart (st.blocks.eraseIdx index) with hL
  have hLlen : L.length = st.blocks.length - 1 := by
    rw [hL]
    unfold sortByStart
    rw [(List.perm_insertionSort _ _).length_eq, List.length_eraseIdx, if_pos hidx]
  have hLpos : 1 ≤ L.length := by omega
  have hMlen : (gapFill L).length = L.length := gapFill_length L
  have hNlen : (fixFirst (gapFill L)).length = (gapFill L).length := fixFirst_length _
  have hRlen : (fixLast (fixFirst (gapFill L))).length = (fixFirst (gapFill L)).length :=
    fixLast_length _
  have hMne : gapFill L ≠ [] := by
    intro hh
    rw [hh] at hMlen
    simp at hMlen
    omega
  have hNne : fixFirst (gapFill L) ≠ [] := by
    intro hh
    rw [hh] at hNlen
    simp at hNlen
    exact hMne (List.length_eq_zero.mp hNlen.symm)
  refine ⟨herr, ?_, ?_, ?_, ?_, ?_, ?_⟩
  · rw [hblocks, hRlen, hNlen, hMlen, hLlen]
  · rw [hblocks, fixLast_map_temp, fixFirst_map_temp, gapFill_map_temp]
  · intro j a b hja hjb hgap
    have hjlt : j + 1 < L.length := by
      have := List.getElem?_eq_some.mp hjb
      exact this.1
    have hstep1 : ((gapFill L)[j]?).map Block.end_time = some b.start_time :=
      gapFill_getElem_gap L j a b hja hjb hgap
    have hstep2 : ((fixFirst (gapFill L))[j]?).map Block.end_time =
        ((gapFill L)[j]?).map Block.end_time := by
      rw [← List.getElem?_map, ← List.getElem?_map, fixFirst_map_end]
    have hstep3 : (fixLast (fixFirst (gapFill L)))[j]? = (fixFirst (gapFill L))[j]? := by
      refine fixLast_getElem_lt _ j ?_
      rw [hNlen, hMlen]
      exact hjlt
    rw [hblocks, hstep3, hstep2, hstep1]
  · rw [hblocks]
    exact fixLast_chain _ (fixFirst_chain _ (gapFill_chain L))
  · have h0 : ((fixFirst (gapFill L))[0]?).map Block.start_time = some 0 :=
      fixFirst_head_start _ hMne
    rw [hblocks, ← List.getElem?_map, fixLast_map_start, List.getElem?_map, h0]
  · rw [hblocks]
    exact fixLast_getLast_end _ hNne

/-- Claim C2 counterexample: the claim says that when the removed block was
last, the new last block's end is forced to 1440; deleting the last block of
`[(00:00-23:59,18),(23:59-24:00,21)]` leaves the new last block ending at
1439, which the fix-up deliberately skips. -/
theorem delete_lastEnd_1439_cex :
    deleteBlock ⟨[⟨0, 1439, 18⟩, ⟨1439, 1440, 21⟩], none⟩ 1 =
      (⟨[⟨0, 1439, 18⟩], none⟩, none) ∧
    ¬((deleteBlock ⟨[⟨0, 1439, 18⟩, ⟨1439, 1440, 21⟩], none⟩ 1).1.blocks.getLast?.map
        Block.end_time = some 1440) := by
  decide

/-- Claim C2 witness: the theorem applied to the three-block scenario,
deleting the middle block. -/
theorem delete_gapFill_witness :
    (deleteBlock ⟨[⟨0, 360, 18⟩, ⟨360, 1320, 21⟩, ⟨1320, 1440, 18⟩], none⟩ 1).2 = none :=
  (delete_gapFill.1 ⟨[⟨0, 360, 18⟩, ⟨360, 1320, 21⟩, ⟨1320, 1440, 18⟩], none⟩ 1
    (by decide) (by decide)).1

/-- Adjacent positions of a contiguous list share their boundary. -/
theorem contiguous_getElem (l : List Block) :
    contiguous l → ∀ j a b, l[j]? = some a → l[j + 1]? = some b →
      a.end_time = b.start_time := by
  induction l with
  | nil =>
    intro _ j a b h
    simp at h
  | cons x rest ih =>
    intro hc j a b hja hjb
    cases rest with
    | nil =>
      rw [List.getElem?_cons_succ] at hjb
      simp at hjb
    | cons y rest2 =>
      cases j with
      | zero =>
        simp only [List.getElem?_cons_zero, List.getElem?_cons_succ, Option.some.injEq] at hja hjb
        obtain rfl : x = a := hja
        obtain rfl : y = b := hjb
        exact hc.1
      | succ j' =>
        rw [List.getElem?_cons_succ] at hja hjb
        exact ih hc.2 j' a b hja hjb

/-- On a contiguous list of blocks of at least 15 minutes, starts strictly
increase along the list. -/
theorem chain_start_lt (l : List Block) :
    contiguous l → (∀ b ∈ l, b.start_time + 15 ≤ b.end_time) →
      l.Chain' (fun a b => a.start_time < b.start_time) := by
  induction l with
  | nil =>
    intro _ _
    exact List.chain'_nil
  | cons x rest ih =>
    intro hc hd
    cases rest with
    | nil => exact List.chain'_singleton x
    | cons y rest2 =>
      rw [List.chain'_cons]
      constructor
      · have hx := hd x (List.mem_cons_self x _)
        have := hc.1
        omega
      · exact ih hc.2 (fun b hb => hd b (List.mem_cons_of_mem x hb))

/-- A list already strictly sorted by start is left unchanged by the sort. -/
theorem sortByStart_eq_self (blocks : List Block)
    (h : blocks.Pairwise (fun a b => a.start_time < b.start_time)) :
    sortByStart blocks = blocks :=
  List.Sorted.insertionSort_eq (h.imp (fun hab => le_of_lt hab))

/-- `findIdx` with a value test recovers the position when every earlier
element differs. -/
theorem findIdx_beq_of_getElem (l : List Block) (i : ℕ) (bd : Block)
    (hi : l[i]? = some bd)
    (hj : ∀ j, j < i → ∀ a, l[j]? = some a → a ≠ bd) :
    l.findIdx (· == bd) = i := by
  obtain ⟨hlen, he⟩ := List.getElem?_eq_some.mp hi
  rw [List.findIdx_eq hlen]
  constructor
  · rw [he]
    exact beq_self_eq_true bd
  · intro j hji
    have hjlen : j < l.length := lt_trans hji hlen
    by_contra hbeq
    rw [Bool.not_eq_false] at hbeq
    exact hj j hji (l[j]) (List.getElem?_eq_getElem hjlen) (eq_of_beq hbeq)

/-- A successful indexed lookup yields a member. -/
theorem mem_of_getElemOpt {l : List Block} {i : ℕ} {a : Block} (h : l[i]? = some a) :
    a ∈ l := by
  obtain ⟨hi, he⟩ := List.getElem?_eq_some.mp h
  rw [← he]
  exact List.getElem_mem hi

/-- On a list with pairwise strictly increasing starts, earlier lookups have
strictly smaller starts. -/
theorem start_lt_of_pairwise {blocks : List Block}
    (hpw : blocks.Pairwise (fun a b => a.start_time < b.start_time))
    {i j : ℕ} {a b : Block} (ha : blocks[i]? = some a) (hb : blocks[j]? = some b)
    (hij : i < j) : a.start_time < b.start_time := by
  obtain ⟨hi, hae⟩ := List.getElem?_eq_some.mp ha
  obtain ⟨hj, hbe⟩ := List.getElem?_eq_some.mp hb
  have hlt := List.pairwise_iff_getElem.mp hpw i j hi hj hij
  rw [hae, hbe] at hlt
  exact hlt

/-- Claim C5 (confirmed): on a valid schedule (contiguous, 15-minute minimum,
pinned at 0 and 1440), one resize step never produces a block shorter than 15
minutes, keeps the first start at 0 and the last end at 1440, and the moved
boundary lands exactly at `max (start+15) (min (requested) (nextEnd-15))`
for a right handle with a next block, resp.
`max (prevStart+15) (min (requested) (end-15))` for a left handle with a
previous block — so a request past `nextEnd - 15` lands exactly there. -/
theorem resize_min15_pinned :
    ∀ (blocks : List Block) (index : ℕ) (handleType : Handle) (snappedDelta : ℤ),
      coversDay blocks → index < blocks.length →
      (∀ x ∈ resizeBoundary blocks index handleType snappedDelta,
        x.start_time + 15 ≤ x.end_time) ∧
      ((resizeBoundary blocks index handleType snappedDelta)[0]?).map Block.start_time
        = some 0 ∧
      ((resizeBoundary blocks index handleType snappedDelta).getLast?).map Block.end_time
        = some 1440 ∧
      (∀ b bn, handleType = Handle.right → blocks[index]? = some b →
        blocks[index + 1]? = some bn →
        ((resizeBoundary blocks index handleType snappedDelta)[index]?).map Block.end_time =
          some (max (b.start_time + 15)
            (min (b.end_time + snappedDelta) (bn.end_time - 15)))) ∧
      (∀ b bp, handleType = Handle.left → blocks[index]? = some b → 0 < index →
        blocks[index - 1]? = some bp →
        ((resizeBoundary blocks index handleType snappedDelta)[index]?).map Block.start_time =
          some (max (bp.start_time + 15)
            (min (b.start_time + snappedDelta) (b.end_time - 15)))) := by
  intro blocks index handleType δ hcd hlen
  obtain ⟨hcont, hdur, hhead, hlast⟩ := hcd
  have hhead0 : (blocks[0]?).map Block.start_time = some 0 := by
    rwa [List.head?_eq_getElem?] at hhead
  have hlastE : (blocks[blocks.length - 1]?).map Block.end_time = some 1440 := by
    rwa [List.getLast?_eq_getElem?] at hlast
  have hchain := chain_start_lt blocks hcont hdur
  haveI : IsTrans Block (fun a b => a.start_time < b.start_time) :=
    ⟨fun a b c h1 h2 => lt_trans h1 h2⟩
  have hpw : blocks.Pairwise (fun a b => a.start_time < b.start_time) :=
    List.chain'_iff_pairwise.mp hchain
  have hpwg := List.pairwise_iff_getElem.mp hpw
  have hsorted : sortByStart blocks = blocks := sortByStart_eq_self blocks hpw
  obtain ⟨bd, hbd⟩ : ∃ bd, blocks[index]? = some bd := ⟨_, List.getElem?_eq_getElem hlen⟩
  have hfind : blocks.findIdx (· == bd) = index := by
    apply findIdx_beq_of_getElem blocks index bd hbd
    intro j hji a hja heq
    have hlt := start_lt_of_pairwise hpw hja hbd hji
    rw [heq] at hlt
    exact lt_irrefl _ hlt
  cases handleType with
  | right =>
    by_cases hlastidx : index = blocks.length - 1
    · -- dragging the right handle of the last block: pinned to 1440, no change
      have hbe : bd.end_time = 1440 := by
        rw [← hlastidx, hbd] at hlastE
        simpa using hlastE
      have hres : resizeBoundary blocks index Handle.right δ = blocks := by
        simp only [resizeBoundary, hbd, hsorted, hfind]
        simp only [if_pos hlastidx, if_pos hbe]
      rw [hres]
      refine ⟨hdur, hhead0, hlast, ?_, ?_⟩
      · intro b bn _ hb hbn
        obtain ⟨hl2, -⟩ := List.getElem?_eq_some.mp hbn
        omega
      · intro b bp heq
        cases heq
    · -- a next block exists
      have hlt1 : index < blocks.length - 1 := by omega
      have hlen1 : index + 1 < blocks.length := by omega
      obtain ⟨bn, hbn⟩ : ∃ bn, blocks[index + 1]? = some bn :=
        ⟨_, List.getElem?_eq_getElem hlen1⟩
      have hadjn : bd.end_time = bn.start_time := contiguous_getElem blocks hcont index bd bn hbd hbn
      have hdbd := hdur bd (mem_of_getElemOpt hbd)
      have hdbn := hdur bn (mem_of_getElemOpt hbn)
      set E := max (bd.start_time + 15) (min (bd.end_time + δ) (bn.end_time - 15)) with hE
      have hE1 : bd.start_time + 15 ≤ E := le_max_left _ _
      have hE2 : E ≤ bn.end_time - 15 := by
        rw [hE]
        exact max_le (by omega) (min_le_right _ _)
      by_cases hg : bd.end_time = E
      · -- the clamp lands on the current boundary: nothing is written
        have hres : resizeBoundary blocks index Handle.right δ = blocks := by
          simp only [resizeBoundary, hbd, hsorted, hfind]
          simp only [if_neg hlastidx, hbn]
          simp only [← hE, if_pos hg]
        rw [hres]
        refine ⟨hdur, hhead0, hlast, ?_, ?_⟩
        · intro b bn2 _ hb hbn2
          obtain rfl : bd = b := by rw [hbd] at hb; exact Option.some.inj hb
          obtain rfl : bn = bn2 := by rw [hbn] at hbn2; exact Option.some.inj hbn2
          rw [hbd, ← hE, ← hg]
          rfl
        · intro b bp heq
          cases heq
      · -- the boundary moves: the block and its right neighbor are rewritten
        have hfind2 : (blocks.set index ⟨bd.start_time, E, bd.temperature⟩).findIdx (· == bn)
            = index + 1 := by
          apply findIdx_beq_of_getElem
          · rw [List.getElem?_set, if_neg (by omega)]
            exact hbn
          · intro j hji a hja heq
            rw [List.getElem?_set] at hja
            by_cases hj : index = j
            · rw [if_pos hj, if_pos (hj ▸ hlen)] at hja
              have hs : a.start_time = bd.start_time := by
                rw [← Option.some.inj hja]
              have hlt := start_lt_of_pairwise hpw hbd hbn (by omega)
              rw [heq] at hs
              omega
            · rw [if_neg hj] at hja
              have hlt := start_lt_of_pairwise hpw hja hbn (by omega)
              rw [heq] at hlt
              exact lt_irrefl _ hlt
        have hres : resizeBoundary blocks index Handle.right δ =
            (blocks.set index ⟨bd.start_time, E, bd.temperature⟩).set (index + 1)
              ⟨E, bn.end_time, bn.temperature⟩ := by
          simp only [resizeBoundary, hbd, hsorted, hfind]
          simp only [if_neg hlastidx, hbn]
          simp only [← hE, if_neg hg, if_pos hlt1]
          rw [hfind2]
        rw [hres]
        have hlen2 : (blocks.set index ⟨bd.start_time, E, bd.temperature⟩).length
            = blocks.length := List.length_set _ _ _
        refine ⟨?_, ?_, ?_, ?_, ?_⟩
        · intro x hx
          rcases List.mem_or_eq_of_mem_set hx with hx1 | rfl
          · rcases List.mem_or_eq_of_mem_set hx1 with hx2 | rfl
            · exact hdur x hx2
            · simpa using hE1
          · simp only
            omega
        · rw [List.getElem?_set, if_neg (by omega), List.getElem?_set]
          by_cases h0 : index = 0
          · rw [if_pos h0, if_pos (h0 ▸ hlen)]
            rw [h0] at hbd
            rw [hbd] at hhead0
            simpa using hhead0
          · rw [if_neg h0]
            exact hhead0
        · rw [List.getLast?_eq_getElem?, List.length_set, hlen2]
          by_cases hn : index + 1 = blocks.length - 1
          · rw [List.getElem?_set, if_pos hn]
            rw [hlen2, if_pos (by omega)]
            have hbnlast : bn.end_time = 1440 := by
              rw [← hn] at hlastE
              rw [hbn] at hlastE
              simpa using hlastE
            simp [hbnlast]
          · rw [List.getElem?_set, if_neg hn]
            rw [List.getElem?_set, if_neg hlastidx]
            exact hlastE
        · intro b bn2 _ hb hbn2
          obtain rfl : bd = b := by rw [hbd] at hb; exact Option.some.inj hb
          obtain rfl : bn = bn2 := by rw [hbn] at hbn2; exact Option.some.inj hbn2
          rw [List.getElem?_set, if_neg (by omega), List.getElem?_set, if_pos rfl,
            if_pos hlen]
          rfl
        · intro b bp heq
          cases heq
  | left =>
    by_cases h0 : index = 0
    · -- dragging the left handle of the first block: pinned to 0, no change
      have hbs : bd.start_time = 0 := by
        rw [h0] at hbd
        rw [hbd] at hhead0
        simpa using hhead0
      have hres : resizeBoundary blocks index Handle.left δ = blocks := by
        simp only [resizeBoundary, hbd, hsorted, hfind]
        simp only [if_pos h0, if_pos hbs]
      rw [hres]
      refine ⟨hdur, hhead0, hlast, ?_, ?_⟩
      · intro b bn heq
        cases heq
      · intro b bp _ hpos hbp
        exact absurd hpos (by omega)
    · have hpos : 0 < index := Nat.pos_of_ne_zero h0
      have hlenp : index - 1 < blocks.length := by omega
      obtain ⟨bp, hbp⟩ : ∃ bp, blocks[index - 1]? = some bp :=
        ⟨_, List.getElem?_eq_getElem hlenp⟩
      have hsucc : index - 1 + 1 = index := by omega
      have hadjp : bp.end_time = bd.start_time :=
        contiguous_getElem blocks hcont (index - 1) bp bd hbp (by rw [hsucc]; exact hbd)
      have hdbd := hdur bd (mem_of_getElemOpt hbd)
      have hdbp := hdur bp (mem_of_getElemOpt hbp)
      set S := max (bp.start_time + 15) (min (bd.start_time + δ) (bd.end_time - 15)) with hS
      have hS1 : bp.start_time + 15 ≤ S := le_max_left _ _
      have hS2 : S ≤ bd.end_time - 15 := by
        rw [hS]
        exact max_le (by omega) (min_le_right _ _)
      by_cases hg : bd.start_time = S
      · -- the clamp lands on the current boundary: nothing is written
        have hres : resizeBoundary blocks index Handle.left δ = blocks := by
          simp only [resizeBoundary, hbd, hsorted, hfind]
          simp only [if_neg h0, hbp]
          simp only [← hS, if_pos hg]
        rw [hres]
        refine ⟨hdur, hhead0, hlast, ?_, ?_⟩
        · intro b bn heq
          cases heq
        · intro b bp2 _ hb _ hbp2
          obtain rfl : bd = b := by rw [hbd] at hb; exact Option.some.inj hb
          obtain rfl : bp = bp2 := by rw [hbp] at hbp2; exact Option.some.inj hbp2
          rw [hbd, ← hS, ← hg]
          rfl
      · -- the boundary moves: the block and its left neighbor are rewritten
        have hfind3 : (blocks.set index ⟨S, bd.end_time, bd.temperature⟩).findIdx (· == bp)
            = index - 1 := by
          apply findIdx_beq_of_getElem
          · rw [List.getElem?_set, if_neg (by omega)]
            exact hbp
          · intro j hji a hja heq
            rw [List.getElem?_set] at hja
            by_cases hj : index = j
            · exact absurd hji (by omega)
            · rw [if_neg hj] at hja
              have hlt := start_lt_of_pairwise hpw hja hbp hji
              rw [heq] at hlt
              exact lt_irrefl _ hlt
        have hres : resizeBoundary blocks index Handle.left δ =
            (blocks.set index ⟨S, bd.end_time, bd.temperature⟩).set (index - 1)
              ⟨bp.start_time, S, bp.temperature⟩ := by
          simp only [resizeBoundary, hbd, hsorted, hfind]
          simp only [if_neg h0, hbp]
          simp only [← hS, if_neg hg, if_pos hpos]
          rw [hfind3]
        rw [hres]
        have hlen2 : (blocks.set index ⟨S, bd.end_time, bd.temperature⟩).length
            = blocks.length := List.length_set _ _ _
        refine ⟨?_, ?_, ?_, ?_, ?_⟩
        · intro x hx
          rcases List.mem_or_eq_of_mem_set hx with hx1 | rfl
          · rcases List.mem_or_eq_of_mem_set hx1 with hx2 | rfl
            · exact hdur x hx2
            · simp only
              omega
          · simp only
            omega
        · rw [List.getElem?_set]
          by_cases hi1 : index - 1 = 0
          · rw [if_pos hi1, if_pos (by rw [hlen2]; omega)]
            have hbps : bp.start_time = 0 := by
              rw [hi1] at hbp
              rw [hbp] at hhead0
              simpa using hhead0
            simp [hbps]
          · rw [if_neg hi1]
            rw [List.getElem?_set, if_neg (by omega)]
            exact hhead0
        · rw [List.getLast?_eq_getElem?, List.length_set, hlen2]
          rw [List.getElem?_set, if_neg (by omega)]
          by_cases hil : index = blocks.length - 1
          · rw [List.getElem?_set, if_pos hil, if_pos hlen]
            have hbde : bd.end_time = 1440 := by
              rw [← hil] at hlastE
              rw [hbd] at hlastE
              simpa using hlastE
            simp [hbde]
          · rw [List.getElem?_set, if_neg hil]
            exact hlastE
        · intro b bn heq
          cases heq
        · intro b bp2 _ hb _ hbp2
          obtain rfl : bd = b := by rw [hbd] at hb; exact Option.some.inj hb
          obtain rfl : bp = bp2 := by rw [hbp] at hbp2; exact Option.some.inj hbp2
          rw [List.getElem?_set, if_neg (by omega)]
          rw [List.getElem?_set, if_pos rfl, if_pos hlen]
          rfl

/-- Claim C5 witness: on `[(00:00-12:00,18),(12:00-24:00,21)]`, dragging the
first block's right handle by +1000 minutes lands exactly at
`nextEnd - 15 = 1425`, not at the requested 1720. -/
theorem resize_min15_pinned_witness :
    ((resizeBoundary [⟨0, 720, 18⟩, ⟨720, 1440, 21⟩] 0 Handle.right 1000)[0]?).map
      Block.end_time = some 1425 :=
  ((resize_min15_pinned [⟨0, 720, 18⟩, ⟨720, 1440, 21⟩] 0 Handle.right 1000
    (by decide) (by decide)).2.2.2.1 ⟨0, 720, 18⟩ ⟨720, 1440, 21⟩ rfl
    (by decide) (by decide)).trans (by decide)

end TaDIY
